import Mathlib

/-!
Verification development for the DnaFeaturesViewer layout core.

Shallow embedding of `src/dna_features_viewer/GraphicFeature.py` and
`src/dna_features_viewer/GraphicRecord/GraphicRecord.py`.

Python integers are embedded as `Int`.  The float arithmetic appearing in
`x_center` / `x_center_circular` only ever multiplies integers by `0.5`,
which is exact in binary floating point for the magnitudes involved, so it
is embedded as exact rational arithmetic (`ℚ`).  Fallible code (the
`raise ValueError` guard in `overlaps_with`, and the `TypeError` Python 3
raises when an `int` is compared with `None`) is embedded with
`Except PyError`.
-/

/-- Errors the embedded Python code can raise: the explicit
`raise ValueError` guard, and the implicit `TypeError` raised by Python 3
when `None` is compared with an `int`. -/
inductive PyError where
  | valueError
  | typeError
deriving DecidableEq

/-- Embedding of `GraphicFeature`.  The Python attribute `end` is a Lean
keyword and is embedded as `stop`; all other attribute names are kept.
Style metadata (`fontdict`, extra `data` keywords) is embedded as
association lists. -/
structure GraphicFeature where
  start : Int
  stop : Int
  strand : Option Int := none
  label : Option String := none
  color : String := "#000080"
  thickness : Int := 14
  linewidth : ℚ := 1
  linecolor : String := "#000000"
  fontdict : List (String × String) := [("fontsize", "11")]
  html : Option String := none
  open_left : Bool := false
  open_right : Bool := false
  box_linewidth : Int := 1
  box_color : String := "auto"
  data : List (String × String) := []
deriving DecidableEq

/-- Convenience constructor used for concrete test inputs: a feature with
the given coordinates and all other attributes at their defaults. -/
def gf (s e : Int) : GraphicFeature :=
  { start := s, stop := e }

/-- Default feature, used only as the default value of `List.getD`. -/
def gfDefault : GraphicFeature := gf 0 0

/-- Python comparison `a < b` on the pairs produced inside
`overlaps_with`: first components are always `int`s; second components may
be `None` (when `circular_seq_length` is absent).  Comparing `None` with
an `int` raises `TypeError`. -/
def cmpRange (a b : Int × Option Int) : Except PyError Bool :=
  if a.1 < b.1 then .ok true
  else if b.1 < a.1 then .ok false
  else
    match a.2, b.2 with
    | some x, some y => .ok (decide (x < y))
    | _, _ => .error .typeError

/-- Python `sorted` on the two-element list `[x, y]`: one comparison
`y < x` decides whether the elements are swapped. -/
def sorted2 (x y : Int × Option Int) :
    Except PyError ((Int × Option Int) × (Int × Option Int)) := do
  let b ← cmpRange y x
  pure (if b then (y, x) else (x, y))

/-- Python comparison `a > b` where `a` may be `None`. -/
def rangeGT (a : Option Int) (b : Int) : Except PyError Bool :=
  match a with
  | some x => .ok (decide (b < x))
  | none => .error .typeError

namespace GraphicFeature

/-- Embedding of `GraphicFeature.split_in_two`: `deepcopy` becomes a
record update, which carries every other attribute over unchanged. -/
def split_in_two (f : GraphicFeature) (x_coord : Int) :
    GraphicFeature × GraphicFeature :=
  ({ f with stop := x_coord }, { f with start := x_coord + 1 })

/-- Embedding of `GraphicFeature.crop`.  The window is `(s, e)`; the two
`if` statements of the source mutate the deep copy independently. -/
def crop (f : GraphicFeature) (window : Int × Int) : Option GraphicFeature :=
  if f.stop < window.1 ∨ window.2 < f.start then none
  else
    some { f with
      start := if f.start < window.1 then window.1 else f.start,
      open_left := if f.start < window.1 then true else f.open_left,
      stop := if window.2 < f.stop then window.2 else f.stop,
      open_right := if window.2 < f.stop then true else f.open_right }

/-- Range decomposition performed inside `overlaps_with`: one range when
`start < end`, otherwise the two ranges `(start, circular_seq_length)` and
`(0, end)` — where `circular_seq_length` may be the absent value `None`. -/
def pyRanges (f : GraphicFeature) (circular_seq_length : Option Int) :
    List (Int × Option Int) :=
  if f.start < f.stop then [(f.start, some f.stop)]
  else [(f.start, circular_seq_length), ((0 : Int), some f.stop)]

/-- Embedding of `GraphicFeature.overlaps_with`.  The guard raises
`ValueError`; the nested `for` loops accumulate `overlaps` with `or` over
every pair of decomposed ranges, sorting each pair and testing
`loc1[1] > loc2[0]`. -/
def overlaps_with (self other : GraphicFeature)
    (circular_seq_length : Option Int) : Except PyError Bool :=
  if (self.stop < self.start ∨ other.stop < other.start) ∧
      circular_seq_length = none then
    .error .valueError
  else
    (pyRanges self circular_seq_length).foldlM (fun overlaps r1 =>
      (pyRanges other circular_seq_length).foldlM (fun overlaps r2 => do
        let lp ← sorted2 r1 r2
        let t ← rangeGT lp.1.2 lp.2.1
        pure (overlaps || t)) overlaps) false

/-- Embedding of the `length` property: `abs(end - start)`. -/
def length (f : GraphicFeature) : Int := |f.stop - f.start|

/-- Embedding of `length_circular`. -/
def length_circular (f : GraphicFeature) (sequence_length : Int) : Int :=
  if f.stop < f.start then sequence_length - f.start + f.stop
  else f.stop - f.start

/-- Embedding of the `x_center` property: `0.5 * (start + end - 1)`. -/
def x_center (f : GraphicFeature) : ℚ :=
  (1 / 2 : ℚ) * ((f.start : ℚ) + (f.stop : ℚ) - 1)

/-- Embedding of `x_center_circular`. -/
def x_center_circular (f : GraphicFeature) (sequence_length : Int) : ℚ :=
  let mid_point : ℚ :=
    ((f.length_circular sequence_length : Int) : ℚ) * (1 / 2 : ℚ) + (f.start : ℚ)
  if mid_point ≤ (sequence_length : ℚ) then mid_point
  else mid_point - (sequence_length : ℚ)

end GraphicFeature

/-- Embedding of `GraphicRecord`.  The constructor's fallback
`sequence_length = len(sequence)` is resolved by the caller here; the
fields are otherwise those of the source. -/
structure GraphicRecord where
  sequence_length : Int
  sequence : Option String := none
  features : List GraphicFeature := []
  feature_level_height : ℚ := 1
  first_index : Int := 0
  plots_indexing : String := "biopython"
  labels_spacing : Int := 8
deriving DecidableEq

/-- Python string slicing `s[a:b]` (step 1): negative indices count from
the end, and both bounds are clamped to `[0, len(s)]`. -/
def pySlice (s : String) (a b : Int) : String :=
  let n : Int := (s.length : Int)
  let norm : Int → Int := fun x => if x < 0 then max 0 (n + x) else min x n
  let lo := (norm a).toNat
  let hi := (norm b).toNat
  String.mk ((s.data.drop lo).take (hi - lo))

namespace GraphicRecord

/-- Embedding of the `span` property. -/
def span (r : GraphicRecord) : Int × Int :=
  (r.first_index, r.first_index + r.sequence_length)

/-- Embedding of `GraphicRecord.crop`.  The out-of-bound guard raises
`ValueError("out-of-bound cropping")`; otherwise a fresh record is built,
whose `plots_indexing` and `labels_spacing` take the constructor
defaults (the source does not pass them through). -/
def crop (r : GraphicRecord) (window : Int × Int) :
    Except PyError GraphicRecord :=
  if window.1 < 0 ∨ r.sequence_length ≤ window.2 then .error .valueError
  else
    .ok { sequence := r.sequence.map (fun sq => pySlice sq window.1 window.2),
          sequence_length := window.2 - window.1,
          features := r.features.filterMap (fun f => f.crop window),
          feature_level_height := r.feature_level_height,
          first_index := r.first_index + window.1 }

/-- Embedding of `GraphicRecord.split_overflowing_features_circularly`.
The in-place update of `self.features` is embedded as returning the
updated record. -/
def split_overflowing_features_circularly (r : GraphicRecord) :
    GraphicRecord :=
  { r with
    features := r.features.flatMap (fun f =>
      if f.start < 0 ∧ 0 < f.stop then
        let p := f.split_in_two (-1)
        [{ p.1 with start := p.1.start + r.sequence_length,
                    stop := p.1.stop + r.sequence_length }, p.2]
      else if f.start < r.sequence_length ∧ r.sequence_length < f.stop then
        let p := f.split_in_two (r.sequence_length - 1)
        [p.1, { p.2 with start := p.2.start - r.sequence_length,
                         stop := p.2.stop - r.sequence_length }]
      else [f]) }

end GraphicRecord

/-!
Claim-side definitions: restatements of what the specification's words
describe, to be compared against the embedded source functions.
-/

/-- Range decomposition as worded in the specification, with the circular
sequence length a plain integer: one linear range when `start < end`,
otherwise the two ranges `[start, circular_seq_length)` and `[0, end)`. -/
def claimRanges (f : GraphicFeature) (L : Int) : List (Int × Int) :=
  if f.start < f.stop then [(f.start, f.stop)]
  else [(f.start, L), ((0 : Int), f.stop)]

/-- Lexicographic sort of a pair of ranges, as Python `sorted` does on a
two-element list of tuples. -/
def sortRangePair (x y : Int × Int) : (Int × Int) × (Int × Int) :=
  if y.1 < x.1 ∨ (y.1 = x.1 ∧ y.2 < x.2) then (y, x) else (x, y)

/-- Strict-overlap test as worded in the specification: sort the two
ranges, then `earlier.end > later.start` (touching does not count). -/
def strictOverlap (x y : Int × Int) : Bool :=
  decide ((sortRangePair x y).2.1 < (sortRangePair x y).1.2)

/-- Overlap predicate as worded in the specification: decompose both
features, then test every pairwise combination of decomposed ranges. -/
def claimOverlap (a b : GraphicFeature) (L : Int) : Bool :=
  (claimRanges a L).any fun r1 => (claimRanges b L).any fun r2 =>
    strictOverlap r1 r2

/-- Per-feature transformation described by the specification for
`split_overflowing_features_circularly`, stated from the spec's words for
comparison with the embedded source function. -/
def specSplitTransform (L : Int) (f : GraphicFeature) :
    List GraphicFeature :=
  if f.start < 0 ∧ 0 < f.stop then
    let p := f.split_in_two (-1)
    [{ p.1 with start := p.1.start + L, stop := p.1.stop + L }, p.2]
  else if f.start < L ∧ L < f.stop then
    let p := f.split_in_two (L - 1)
    [p.1, { p.2 with start := p.2.start - L, stop := p.2.stop - L }]
  else [f]

/-!
Helper lemmas about the pairwise range comparison inside `overlaps_with`.
-/

/-- Inner loop body of `overlaps_with` on two fully integer ranges never
errors, and computes exactly the specification's strict-overlap test. -/
theorem overlapStep (acc : Bool) (x1 x2 y1 y2 : Int) :
    (do
      let lp ← sorted2 (x1, some x2) (y1, some y2)
      let t ← rangeGT lp.1.2 lp.2.1
      pure (acc || t) : Except PyError Bool) =
      .ok (acc || strictOverlap (x1, x2) (y1, y2)) := by
  rcases lt_trichotomy y1 x1 with h | h | h
  · simp [sorted2, cmpRange, rangeGT, strictOverlap, sortRangePair, h,
      not_lt_of_gt h, bind, Except.bind, pure, Except.pure, Functor.map, Except.map]
  · subst h
    by_cases h2 : y2 < x2 <;>
      simp [sorted2, cmpRange, rangeGT, strictOverlap, sortRangePair, h2,
        bind, Except.bind, pure, Except.pure, Functor.map, Except.map]
  · have h' : ¬ y1 < x1 := not_lt_of_gt h
    have h'' : y1 ≠ x1 := (ne_of_lt h).symm
    simp [sorted2, cmpRange, rangeGT, strictOverlap, sortRangePair, h, h', h'',
      bind, Except.bind, pure, Except.pure, Functor.map, Except.map]

/-- On two ranges with integer upper bounds, the embedded Python `sorted`
never errors and agrees with the specification's lexicographic sort. -/
theorem sorted2_some (x1 x2 y1 y2 : Int) :
    sorted2 (x1, some x2) (y1, some y2) =
      .ok (((sortRangePair (x1, x2) (y1, y2)).1.1,
            some (sortRangePair (x1, x2) (y1, y2)).1.2),
           ((sortRangePair (x1, x2) (y1, y2)).2.1,
            some (sortRangePair (x1, x2) (y1, y2)).2.2)) := by
  rcases lt_trichotomy y1 x1 with h | h | h
  · simp [sorted2, cmpRange, sortRangePair, h, not_lt_of_gt h,
      bind, Except.bind, pure, Except.pure]
  · subst h
    by_cases h2 : y2 < x2 <;>
      simp [sorted2, cmpRange, sortRangePair, h2,
        bind, Except.bind, pure, Except.pure]
  · have h' : ¬ y1 < x1 := not_lt_of_gt h
    have h'' : y1 ≠ x1 := (ne_of_lt h).symm
    simp [sorted2, cmpRange, sortRangePair, h, h', h'',
      bind, Except.bind, pure, Except.pure]

/-- With `circular_seq_length` supplied, `overlaps_with` never errors and
computes exactly the specification's decompose-sort-test predicate. -/
theorem overlaps_with_some_eq (a b : GraphicFeature) (L : Int) :
    GraphicFeature.overlaps_with a b (some L) = .ok (claimOverlap a b L) := by
  unfold GraphicFeature.overlaps_with
  rw [if_neg (by simp)]
  by_cases ha : a.start < a.stop <;> by_cases hb : b.start < b.stop <;>
    simp [GraphicFeature.pyRanges, claimOverlap, claimRanges, ha, hb,
      sorted2_some, rangeGT, strictOverlap, bind, Except.bind, pure,
      Except.pure, Bool.or_assoc]

/-- Characterization of the specification's strict-overlap test on proper
ranges: the two half-open intervals intersect. -/
theorem strictOverlap_eq (x1 x2 y1 y2 : Int) (hx : x1 < x2) (hy : y1 < y2) :
    strictOverlap (x1, x2) (y1, y2) =
      decide (max x1 y1 < min x2 y2) := by
  simp only [strictOverlap, sortRangePair]
  split_ifs with hc
  · simp only [decide_eq_decide]
    omega
  · simp only [decide_eq_decide]
    omega

/-- On two linear (proper) features, `overlaps_with` without a circular
length never errors and computes the single strict-overlap test. -/
theorem overlaps_with_linear_eq (a b : GraphicFeature)
    (ha : a.start < a.stop) (hb : b.start < b.stop) :
    GraphicFeature.overlaps_with a b none =
      .ok (strictOverlap (a.start, a.stop) (b.start, b.stop)) := by
  unfold GraphicFeature.overlaps_with
  rw [if_neg (by intro h; rcases h with ⟨h1 | h1, -⟩ <;> omega)]
  simp [GraphicFeature.pyRanges, ha, hb, sorted2_some, rangeGT,
    strictOverlap, bind, Except.bind, pure, Except.pure]

/-- The embedded Python pair comparison can only raise `TypeError`. -/
theorem cmpRange_ne_valueError (a b : Int × Option Int) :
    cmpRange a b ≠ .error .valueError := by
  unfold cmpRange
  split_ifs
  · simp
  · simp
  · rcases a.2 <;> rcases b.2 <;> simp

/-- The embedded Python `sorted` can only raise `TypeError`. -/
theorem sorted2_ne_valueError (x y : Int × Option Int) :
    sorted2 x y ≠ .error .valueError := by
  unfold sorted2
  cases h : cmpRange y x with
  | error e =>
    cases e with
    | valueError => exact absurd h (cmpRange_ne_valueError y x)
    | typeError => simp [bind, Except.bind, h]
  | ok b => simp [bind, Except.bind, h, pure, Except.pure]

/-- The comparison `loc1[1] > loc2[0]` can only raise `TypeError`. -/
theorem rangeGT_ne_valueError (a : Option Int) (b : Int) :
    rangeGT a b ≠ .error .valueError := by
  cases a <;> simp [rangeGT]

/-- One iteration of the nested loops of `overlaps_with` can only raise
`TypeError`. -/
theorem overlapBody_ne_valueError (acc : Bool) (r1 r2 : Int × Option Int) :
    (do
      let lp ← sorted2 r1 r2
      let t ← rangeGT lp.1.2 lp.2.1
      pure (acc || t) : Except PyError Bool) ≠ .error .valueError := by
  cases h : sorted2 r1 r2 with
  | error e =>
    cases e with
    | valueError => exact absurd h (sorted2_ne_valueError r1 r2)
    | typeError => simp [bind, Except.bind, h]
  | ok lp =>
    cases h2 : rangeGT lp.1.2 lp.2.1 with
    | error e =>
      cases e with
      | valueError => exact absurd h2 (rangeGT_ne_valueError _ _)
      | typeError => simp [bind, Except.bind, h, h2]
    | ok t => simp [bind, Except.bind, h, h2, pure, Except.pure]

/-- The inner loop of `overlaps_with` can only raise `TypeError`. -/
theorem innerFold_ne_valueError (r1 : Int × Option Int)
    (rs : List (Int × Option Int)) (acc : Bool) :
    (rs.foldlM (fun overlaps r2 => do
      let lp ← sorted2 r1 r2
      let t ← rangeGT lp.1.2 lp.2.1
      pure (overlaps || t)) acc : Except PyError Bool) ≠
      .error .valueError := by
  induction rs generalizing acc with
  | nil => simp [List.foldlM_nil, pure, Except.pure]
  | cons r rs ih =>
    rw [List.foldlM_cons]
    cases h : (do
      let lp ← sorted2 r1 r
      let t ← rangeGT lp.1.2 lp.2.1
      pure (acc || t) : Except PyError Bool) with
    | error e =>
      cases e with
      | valueError => exact absurd h (overlapBody_ne_valueError acc r1 r)
      | typeError => simp [bind, Except.bind, h]
    | ok v => simp only [bind, Except.bind, h]; exact ih v

/-- The nested loops of `overlaps_with` can only raise `TypeError`. -/
theorem overlapFold_ne_valueError (rs1 rs2 : List (Int × Option Int))
    (acc : Bool) :
    (rs1.foldlM (fun overlaps r1 =>
      rs2.foldlM (fun overlaps r2 => do
        let lp ← sorted2 r1 r2
        let t ← rangeGT lp.1.2 lp.2.1
        pure (overlaps || t)) overlaps) acc : Except PyError Bool) ≠
      .error .valueError := by
  induction rs1 generalizing acc with
  | nil => simp [List.foldlM_nil, pure, Except.pure]
  | cons r rs ih =>
    rw [List.foldlM_cons]
    cases h : (rs2.foldlM (fun overlaps r2 => do
      let lp ← sorted2 r r2
      let t ← rangeGT lp.1.2 lp.2.1
      pure (overlaps || t)) acc : Except PyError Bool) with
    | error e =>
      cases e with
      | valueError => exact absurd h (innerFold_ne_valueError r rs2 acc)
      | typeError => simp [bind, Except.bind, h]
    | ok v => simp only [bind, Except.bind, h]; exact ih v

/-- Past its guard, `overlaps_with` never raises the documented
configuration `ValueError`. -/
theorem overlaps_with_ne_valueError (a b : GraphicFeature)
    (clen : Option Int)
    (hg : ¬ ((a.stop < a.start ∨ b.stop < b.start) ∧ clen = none)) :
    GraphicFeature.overlaps_with a b clen ≠ .error .valueError := by
  unfold GraphicFeature.overlaps_with
  rw [if_neg hg]
  exact overlapFold_ne_valueError _ _ _

/-- C2: with `circular_seq_length` supplied, `overlaps_with` returns true
iff some pair of decomposed ranges (one range for a proper interval, two
for an origin-spanning one), sorted, satisfies `earlier.end > later.start`;
in particular two ranges that merely touch do not count as overlapping. -/
theorem overlaps_with_decomposition_spec (a b : GraphicFeature) (L : Int) :
    GraphicFeature.overlaps_with a b (some L) = .ok (claimOverlap a b L) ∧
    (a.start < a.stop → b.start < b.stop → a.stop = b.start →
      GraphicFeature.overlaps_with a b (some L) = .ok false) := by
  have h1 := overlaps_with_some_eq a b L
  refine ⟨h1, fun ha hb ht => ?_⟩
  rw [h1]
  have h2 : claimOverlap a b L = false := by
    simp only [claimOverlap, claimRanges, if_pos ha, if_pos hb,
      List.any_cons, List.any_nil, Bool.or_false]
    rw [strictOverlap_eq _ _ _ _ ha hb]
    simp only [decide_eq_false_iff_not]
    omega
  rw [h2]

/-- Witness for C2 at a concrete touching pair. -/
theorem overlaps_with_decomposition_spec_witness :
    GraphicFeature.overlaps_with (gf 0 5) (gf 5 9) (some 20) =
      .ok (claimOverlap (gf 0 5) (gf 5 9) 20) ∧
    GraphicFeature.overlaps_with (gf 0 5) (gf 5 9) (some 20) = .ok false :=
  ⟨(overlaps_with_decomposition_spec (gf 0 5) (gf 5 9) 20).1,
   (overlaps_with_decomposition_spec (gf 0 5) (gf 5 9) 20).2
     (by decide) (by decide) (by decide)⟩

/-- C4 (counterexample): the features `(3,3)` and `(3,5)` are neither of
them origin-spanning (`start > end` fails for both), yet the call with
`circular_seq_length` absent fails — with the comparison `TypeError`, not
the guarded `ValueError`. -/
theorem overlaps_with_error_counterexample :
    ¬ ((gf 3 3).stop < (gf 3 3).start ∨ (gf 3 5).stop < (gf 3 5).start) ∧
    GraphicFeature.overlaps_with (gf 3 3) (gf 3 5) none =
      .error .typeError := by
  exact ⟨by decide, rfl⟩

/-- C4 (amended): with `circular_seq_length` absent the documented
configuration `ValueError` is raised when at least one feature is
origin-spanning (`start > end`); when both features are proper linear
intervals no error is raised; and when `circular_seq_length` is supplied
no error is raised.  (The converse of the original claim fails for
degenerate `start = end` features, which can raise `TypeError`.) -/
theorem overlaps_with_error_spec (a b : GraphicFeature) (L : Int) :
    (a.stop < a.start ∨ b.stop < b.start →
      GraphicFeature.overlaps_with a b none = .error .valueError) ∧
    (a.start < a.stop → b.start < b.stop →
      GraphicFeature.overlaps_with a b none =
        .ok (strictOverlap (a.start, a.stop) (b.start, b.stop))) ∧
    GraphicFeature.overlaps_with a b (some L) =
      .ok (claimOverlap a b L) := by
  refine ⟨fun h => ?_, fun ha hb => overlaps_with_linear_eq a b ha hb,
    overlaps_with_some_eq a b L⟩
  unfold GraphicFeature.overlaps_with
  rw [if_pos ⟨h, rfl⟩]

/-- Witness for C4 at concrete inputs for each branch. -/
theorem overlaps_with_error_spec_witness :
    GraphicFeature.overlaps_with (gf 5 2) (gf 0 3) none =
      .error .valueError ∧
    GraphicFeature.overlaps_with (gf 0 3) (gf 2 6) none =
      .ok (strictOverlap ((gf 0 3).start, (gf 0 3).stop)
            ((gf 2 6).start, (gf 2 6).stop)) :=
  ⟨(overlaps_with_error_spec (gf 5 2) (gf 0 3) 0).1 (by decide),
   (overlaps_with_error_spec (gf 0 3) (gf 2 6) 0).2.1 (by decide) (by decide)⟩

/-- C10: a degenerate feature (`start = end`) paired with a linear one
does not take the documented configuration-error branch (which tests
`start > end` strictly): it is decomposed as origin-spanning into the
ranges `(start, None)` and `(0, end)`, so the strict-overlap comparison
faces a range whose upper bound is the absent `circular_seq_length`; the
guarded `ValueError` branch never covers this input. -/
theorem overlaps_with_degenerate_spec (a b : GraphicFeature)
    (hdeg : a.start = a.stop) (hlin : b.start < b.stop) :
    GraphicFeature.pyRanges a none =
      [(a.start, none), ((0 : Int), some a.stop)] ∧
    GraphicFeature.overlaps_with a b none ≠ .error .valueError ∧
    GraphicFeature.overlaps_with b a none ≠ .error .valueError := by
  refine ⟨?_, ?_, ?_⟩
  · simp [GraphicFeature.pyRanges, hdeg]
  · exact overlaps_with_ne_valueError a b none
      (by intro h; rcases h with ⟨h1 | h1, -⟩ <;> omega)
  · exact overlaps_with_ne_valueError b a none
      (by intro h; rcases h with ⟨h1 | h1, -⟩ <;> omega)

/-- Witness for C10 at the concrete degenerate pair `(3,3)` / `(3,5)`. -/
theorem overlaps_with_degenerate_spec_witness :
    GraphicFeature.pyRanges (gf 3 3) none =
      [((gf 3 3).start, none), ((0 : Int), some (gf 3 3).stop)] ∧
    GraphicFeature.overlaps_with (gf 3 3) (gf 3 5) none ≠
      .error .valueError ∧
    GraphicFeature.overlaps_with (gf 3 5) (gf 3 3) none ≠
      .error .valueError :=
  overlaps_with_degenerate_spec (gf 3 3) (gf 3 5) (by decide) (by decide)

/-- C1 (counterexample): cropping a feature whose `open_left` flag is
already set, with a window that does not truncate it, returns a feature
with `open_left = true` although the window start is not greater than the
feature start — so `open_left` is not `true` iff `s > f.start`. -/
theorem crop_open_flag_counterexample :
    ({ gf 0 10 with open_left := true } : GraphicFeature).crop (0, 10) =
      some { gf 0 10 with open_left := true } ∧
    ¬ ((gf 0 10).start < 0) := by
  exact ⟨rfl, by decide⟩

/-- C1 (amended): `crop` returns no value iff the closed intervals are
disjoint; otherwise the copy's interval is the exact intersection, its
`open_left` is true iff the window truncates the left side or the flag was
already set (likewise `open_right`), and every other field is carried over
unchanged. -/
theorem crop_spec_amended (f : GraphicFeature) (s e : Int) :
    (f.crop (s, e) = none ↔ f.stop < s ∨ e < f.start) ∧
    (¬ (f.stop < s ∨ e < f.start) →
      f.crop (s, e) = some { f with
        start := max f.start s,
        stop := min f.stop e,
        open_left := f.open_left || decide (f.start < s),
        open_right := f.open_right || decide (e < f.stop) }) := by
  constructor
  · unfold GraphicFeature.crop
    split_ifs with h
    · simp [h]
    · simp [h]
  · intro h
    unfold GraphicFeature.crop
    rw [if_neg h]
    by_cases h1 : f.start < s <;> by_cases h2 : e < f.stop <;>
      simp [h1, h2, GraphicFeature.mk.injEq] <;> omega

/-- Witness for C1 at a concrete overlapping window. -/
theorem crop_spec_amended_witness :
    ¬ ((gf 2 9).stop < 4 ∨ (7 : Int) < (gf 2 9).start) ∧
    (gf 2 9).crop (4, 7) = some { gf 2 9 with
      start := max (gf 2 9).start 4,
      stop := min (gf 2 9).stop 7,
      open_left := (gf 2 9).open_left || decide ((gf 2 9).start < 4),
      open_right := (gf 2 9).open_right || decide ((7 : Int) < (gf 2 9).stop) } :=
  ⟨by decide, (crop_spec_amended (gf 2 9) 4 7).2 (by decide)⟩

/-- C8 (counterexample): splitting the feature `[0,5]` at the cut
position `x = 7` yields fragments `[0,7]` and `[8,5]` whose union does not
reconstruct the original span — the claim fails for cut positions outside
the interval. -/
theorem split_in_two_counterexample :
    ¬ (Finset.Icc ((gf 0 5).split_in_two 7).1.start
         ((gf 0 5).split_in_two 7).1.stop ∪
       Finset.Icc ((gf 0 5).split_in_two 7).2.start
         ((gf 0 5).split_in_two 7).2.stop =
       Finset.Icc (gf 0 5).start (gf 0 5).stop) := by
  decide

/-- C8 (amended): for a cut position `x` inside `[a, b)`, `split_in_two`
returns the copies `[a, x]` and `[x+1, b]` (all other fields carried over
unchanged), whose union reconstructs the original span exactly once, and
which are non-overlapping and adjacent. -/
theorem split_in_two_spec (f : GraphicFeature) (x : Int)
    (h1 : f.start ≤ x) (h2 : x < f.stop) :
    (f.split_in_two x).1 = { f with stop := x } ∧
    (f.split_in_two x).2 = { f with start := x + 1 } ∧
    Finset.Icc f.start x ∪ Finset.Icc (x + 1) f.stop =
      Finset.Icc f.start f.stop ∧
    Disjoint (Finset.Icc f.start x) (Finset.Icc (x + 1) f.stop) ∧
    (f.split_in_two x).1.stop + 1 = (f.split_in_two x).2.start := by
  refine ⟨rfl, rfl, ?_, ?_, rfl⟩
  · ext n
    simp only [Finset.mem_union, Finset.mem_Icc]
    omega
  · rw [Finset.disjoint_left]
    intro n hn hn2
    simp only [Finset.mem_Icc] at hn hn2
    omega

/-- Witness for C8 at the concrete feature `[0,9]` cut at `4`. -/
theorem split_in_two_spec_witness :
    ((gf 0 9).split_in_two 4).1 = { gf 0 9 with stop := 4 } ∧
    ((gf 0 9).split_in_two 4).2 = { gf 0 9 with start := 4 + 1 } ∧
    Finset.Icc (gf 0 9).start 4 ∪ Finset.Icc (4 + 1) (gf 0 9).stop =
      Finset.Icc (gf 0 9).start (gf 0 9).stop ∧
    Disjoint (Finset.Icc (gf 0 9).start 4)
      (Finset.Icc (4 + 1) (gf 0 9).stop) ∧
    ((gf 0 9).split_in_two 4).1.stop + 1 =
      ((gf 0 9).split_in_two 4).2.start :=
  split_in_two_spec (gf 0 9) 4 (by decide) (by decide)

/-- C6 (counterexample): for the non-origin-spanning feature `[0,10]` on a
length-100 sequence, `x_center_circular` is `5` while `x_center` is
`4.5` — they are not equal. -/
theorem x_center_circular_counterexample :
    (gf 0 10).start ≤ (gf 0 10).stop ∧ (gf 0 10).stop ≤ (100 : Int) ∧
    GraphicFeature.x_center_circular (gf 0 10) 100 ≠
      GraphicFeature.x_center (gf 0 10) := by
  refine ⟨by decide, by decide, ?_⟩
  norm_num [GraphicFeature.x_center_circular, GraphicFeature.x_center,
    GraphicFeature.length_circular, gf]

/-- C6 (amended): for a non-origin-spanning feature, `length_circular`
equals `length`, and (when the feature lies within the sequence)
`x_center_circular` equals `x_center + 1/2`; for an origin-spanning
feature with in-range coordinates, `x_center_circular` lies within
`(0, sequence_length]`. -/
theorem length_x_center_circular_spec (f : GraphicFeature) (L : Int) :
    (f.start ≤ f.stop → f.length_circular L = f.length) ∧
    (f.start ≤ f.stop → f.stop ≤ L →
      f.x_center_circular L = f.x_center + 1 / 2) ∧
    (f.stop < f.start → 0 ≤ f.stop → f.start < L →
      0 < f.x_center_circular L ∧ f.x_center_circular L ≤ (L : ℚ)) := by
  refine ⟨fun h => ?_, fun h hL => ?_, fun h h0 hL => ?_⟩
  · unfold GraphicFeature.length_circular GraphicFeature.length
    rw [if_neg (by omega), abs_of_nonneg (by omega)]
  · have hlen : f.length_circular L = f.stop - f.start := by
      unfold GraphicFeature.length_circular
      rw [if_neg (by omega)]
    simp only [GraphicFeature.x_center_circular, GraphicFeature.x_center, hlen]
    have h1 : (f.start : ℚ) ≤ (f.stop : ℚ) := by exact_mod_cast h
    have h2 : (f.stop : ℚ) ≤ (L : ℚ) := by exact_mod_cast hL
    rw [if_pos (by push_cast; linarith)]
    push_cast
    ring
  · have hlen : f.length_circular L = L - f.start + f.stop := by
      unfold GraphicFeature.length_circular
      rw [if_pos h]
    simp only [GraphicFeature.x_center_circular, hlen]
    have h1 : (f.stop : ℚ) + 1 ≤ (f.start : ℚ) := by exact_mod_cast h
    have h2 : (0 : ℚ) ≤ (f.stop : ℚ) := by exact_mod_cast h0
    have h3 : (f.start : ℚ) + 1 ≤ (L : ℚ) := by exact_mod_cast hL
    split_ifs with hm
    · refine ⟨?_, hm⟩
      push_cast at hm ⊢
      linarith
    · push_cast at hm ⊢
      refine ⟨by linarith, by linarith⟩

/-- Witness for C6 at the linear feature `[1,5]` and the origin-spanning
feature `(7,3)` on a length-10 sequence. -/
theorem length_x_center_circular_spec_witness :
    GraphicFeature.length_circular (gf 1 5) 10 = GraphicFeature.length (gf 1 5) ∧
    GraphicFeature.x_center_circular (gf 1 5) 10 =
      GraphicFeature.x_center (gf 1 5) + 1 / 2 ∧
    (0 < GraphicFeature.x_center_circular (gf 7 3) 10 ∧
      GraphicFeature.x_center_circular (gf 7 3) 10 ≤ ((10 : Int) : ℚ)) :=
  ⟨(length_x_center_circular_spec (gf 1 5) 10).1 (by decide),
   (length_x_center_circular_spec (gf 1 5) 10).2.1 (by decide) (by decide),
   (length_x_center_circular_spec (gf 7 3) 10).2.2
     (by decide) (by decide) (by decide)⟩

/-- C3: `split_overflowing_features_circularly` replaces each feature by
exactly the fragments the specification describes (split at `-1` with the
left fragment shifted by `+sequence_length` when `start < 0 < end`, split
at `sequence_length - 1` with the right fragment shifted by
`-sequence_length` when `start < sequence_length < end`), every fragment
keeps the original label, and on the record of the specification's
example the resulting `(start, end, label)` multiset is exactly the
claimed one. -/
theorem split_overflowing_features_spec :
    (∀ r : GraphicRecord,
      (r.split_overflowing_features_circularly).features =
        r.features.flatMap (specSplitTransform r.sequence_length)) ∧
    (∀ (L : Int) (f : GraphicFeature),
      ((specSplitTransform L f).all fun g => g.label == f.label) = true) ∧
    ((GraphicRecord.split_overflowing_features_circularly
        { sequence_length := 50,
          features := [{ gf 10 20 with strand := some 1, label := some "a" },
                       { gf 40 55 with strand := some 1, label := some "b" },
                       { gf (-20) 2 with strand := some 1, label := some "c" }]
        }).features.map (fun f => (f.start, f.stop, f.label))).Perm
      [((0 : Int), (2 : Int), some "c"), (0, 5, some "b"),
       (10, 20, some "a"), (30, 49, some "c"), (40, 49, some "b")] := by
  refine ⟨fun r => rfl, fun L f => ?_, by decide⟩
  unfold specSplitTransform GraphicFeature.split_in_two
  split_ifs <;> simp

/-- C5: `GraphicRecord.crop` fails with the range `ValueError` iff
`s < 0` or `e >= sequence_length` (producing no partial result);
otherwise it returns a fresh record with the sequence sliced (when
present), every feature individually cropped and the non-overlapping ones
dropped, `sequence_length = e - s` and `first_index` shifted by `s`. -/
theorem record_crop_spec (r : GraphicRecord) (s e : Int) :
    (r.crop (s, e) = .error .valueError ↔ s < 0 ∨ r.sequence_length ≤ e) ∧
    (¬ (s < 0 ∨ r.sequence_length ≤ e) →
      r.crop (s, e) = .ok
        { sequence := r.sequence.map (fun sq => pySlice sq s e),
          sequence_length := e - s,
          features := r.features.filterMap (fun f => f.crop (s, e)),
          feature_level_height := r.feature_level_height,
          first_index := r.first_index + s }) := by
  unfold GraphicRecord.crop
  constructor
  · split_ifs with h
    · simp [h]
    · simp [h]
  · intro h
    rw [if_neg h]

/-- Record used as the concrete input of the C5 witness. -/
def cropWitnessRecord : GraphicRecord :=
  { sequence_length := 20, sequence := some "AAAATTTTCCCCGGGGAAAA",
    features := [gf 1 5, gf 10 30, gf 25 28] }

/-- Witness for C5 at a concrete in-bounds window. -/
theorem record_crop_spec_witness :
    ¬ ((2 : Int) < 0 ∨ cropWitnessRecord.sequence_length ≤ (8 : Int)) ∧
    cropWitnessRecord.crop (2, 8) = .ok
      { sequence := cropWitnessRecord.sequence.map
          (fun sq => pySlice sq 2 8),
        sequence_length := 8 - 2,
        features := cropWitnessRecord.features.filterMap
          (fun f => f.crop (2, 8)),
        feature_level_height := cropWitnessRecord.feature_level_height,
        first_index := cropWitnessRecord.first_index + 2 } :=
  ⟨by decide, (record_crop_spec cropWitnessRecord 2 8).2 (by decide)⟩

/-- C7 (counterexample): the feature `(60,70)` on a length-50 record has
all coordinates inside `[-sequence_length, 2*sequence_length)`, yet
`split_overflowing_features_circularly` leaves it unchanged, outside
`[0, sequence_length)` — the claimed invariant fails. -/
theorem split_overflowing_invariant_counterexample :
    (∀ f ∈ (GraphicRecord.mk 50 none [gf 60 70] 1 0 "biopython" 8).features,
      -(50 : Int) ≤ f.start ∧ f.start < 2 * 50 ∧
      -(50 : Int) ≤ f.stop ∧ f.stop < 2 * 50) ∧
    ¬ (∀ f ∈ (GraphicRecord.mk 50 none [gf 60 70] 1 0 "biopython"
          8).split_overflowing_features_circularly.features,
        0 ≤ f.start ∧ f.start < 50 ∧ 0 ≤ f.stop ∧ f.stop < 50) := by
  decide

/-- C7 (amended): when every feature is either already inside
`[0, sequence_length)`, or overflows on the left with
`-sequence_length <= start < 0 < end < sequence_length`, or overflows on
the right with `0 <= start < sequence_length < end < 2*sequence_length`,
then after `split_overflowing_features_circularly` every feature's
coordinates lie within `[0, sequence_length)`. -/
theorem split_overflowing_invariant (r : GraphicRecord)
    (h : ∀ f ∈ r.features,
      (0 ≤ f.start ∧ f.start < r.sequence_length ∧
       0 ≤ f.stop ∧ f.stop < r.sequence_length) ∨
      (-r.sequence_length ≤ f.start ∧ f.start < 0 ∧
       0 < f.stop ∧ f.stop < r.sequence_length) ∨
      (0 ≤ f.start ∧ f.start < r.sequence_length ∧
       r.sequence_length < f.stop ∧ f.stop < 2 * r.sequence_length)) :
    ∀ g ∈ (r.split_overflowing_features_circularly).features,
      0 ≤ g.start ∧ g.start < r.sequence_length ∧
      0 ≤ g.stop ∧ g.stop < r.sequence_length := by
  intro g hg
  simp only [GraphicRecord.split_overflowing_features_circularly,
    List.mem_flatMap] at hg
  obtain ⟨f, hf, hgf⟩ := hg
  have hP := h f hf
  by_cases c1 : f.start < 0 ∧ 0 < f.stop
  · rw [if_pos c1] at hgf
    simp only [GraphicFeature.split_in_two, List.mem_cons,
      List.not_mem_nil, or_false] at hgf
    rcases hgf with hg1 | hg2
    · subst hg1; simp only; omega
    · subst hg2; simp only; omega
  · rw [if_neg c1] at hgf
    by_cases c2 : f.start < r.sequence_length ∧ r.sequence_length < f.stop
    · rw [if_pos c2] at hgf
      simp only [GraphicFeature.split_in_two, List.mem_cons,
        List.not_mem_nil, or_false] at hgf
      rcases hgf with hg1 | hg2
      · subst hg1; simp only; omega
      · subst hg2; simp only; omega
    · rw [if_neg c2] at hgf
      simp only [List.mem_cons, List.not_mem_nil, or_false] at hgf
      subst hgf
      omega

/-- Witness for C7: on the length-50 record with the single left-overflow
feature `(-20,2)`, the fragment `(30,49)` produced by the split lies
within `[0, 50)`. -/
theorem split_overflowing_invariant_witness :
    0 ≤ (gf 30 49).start ∧ (gf 30 49).start < 50 ∧
    0 ≤ (gf 30 49).stop ∧ (gf 30 49).stop < 50 :=
  split_overflowing_invariant
    (GraphicRecord.mk 50 none [gf (-20) 2] 1 0 "biopython" 8)
    (by decide) (gf 30 49) (by decide)

/-!
Level assignment.  The level-assignment pass (spec section 4.3) is not
part of the sources under `src/`; the following definitions are modelled
from the specification's words.
-/

/-- Boolean view of `overlaps_with` (false when the call errors), used by
the modelled level-assignment pass. -/
def ovB (clen : Option Int) (a b : GraphicFeature) : Bool :=
  ((GraphicFeature.overlaps_with a b clen).toOption).getD false

/-- Stable insertion of a feature into a list sorted by start position:
the inserted feature goes after all features with a smaller or equal
start. -/
def insertByStart (f : GraphicFeature) :
    List GraphicFeature → List GraphicFeature
  | [] => [f]
  | g :: l => if g.start ≤ f.start then g :: insertByStart f l
              else f :: g :: l

/-- Modelled from the spec: "process features in a stable order (e.g., by
start position, ties broken by original order)" — a stable sort by start
position. -/
def sortByStart : List GraphicFeature → List GraphicFeature
  | [] => []
  | f :: l => insertByStart f (sortByStart l)

/-- Modelled from the spec: "maintain a set of currently open levels each
tracking the most recently placed feature; for each feature, select the
lowest-numbered level whose occupant does not overlap it, or open a new
level if none qualifies".  `place` returns the selected level and the
updated occupant-per-level list. -/
def place (ov : GraphicFeature → GraphicFeature → Bool)
    (f : GraphicFeature) : List GraphicFeature → Nat × List GraphicFeature
  | [] => (0, [f])
  | o :: occ =>
    if ov o f then ((place ov f occ).1 + 1, o :: (place ov f occ).2)
    else (0, f :: occ)

/-- Modelled from the spec: process the features in order through `place`,
recording each feature's assigned level. -/
def greedyAux (ov : GraphicFeature → GraphicFeature → Bool) :
    List GraphicFeature → List GraphicFeature →
    List (GraphicFeature × Nat)
  | _, [] => []
  | occ, f :: rest =>
    let p := place ov f occ
    (f, p.1) :: greedyAux ov p.2 rest

/-- Modelled from the spec: the level assignment computed for a record's
features — greedy first-fit placement over the features in stable
start-position order, testing overlap per `Feature.overlaps_with` (with
the circular sequence length when the record is circular). -/
def compute_features_levels (clen : Option Int)
    (features : List GraphicFeature) : List (GraphicFeature × Nat) :=
  greedyAux (ovB clen) [] (sortByStart features)

/-- C9 (counterexample): on the circular record of length 10 with the
five arcs below, the computed assignment places both `(0,3)` and the
origin-spanning `(8,2)` at level 0, although they overlap (each level
only tracks its most recent occupant, which is insufficient for circular
records) — so the assignment is not sound on circular records. -/
theorem levels_circular_counterexample :
    (gf 0 3, 0) ∈ compute_features_levels (some 10)
      [gf 0 3, gf 2 5, gf 4 7, gf 6 9, gf 8 2] ∧
    (gf 8 2, 0) ∈ compute_features_levels (some 10)
      [gf 0 3, gf 2 5, gf 4 7, gf 6 9, gf 8 2] ∧
    GraphicFeature.overlaps_with (gf 0 3) (gf 8 2) (some 10) =
      .ok true := by
  refine ⟨by decide, by decide, rfl⟩

/-- Intersection predicate for proper linear features: the half-open
intervals `[start, end)` intersect. -/
def IvOv (a b : GraphicFeature) : Prop :=
  max a.start b.start < min a.stop b.stop

/-- Symmetry of the intersection predicate. -/
theorem IvOv_symm {a b : GraphicFeature} (h : IvOv a b) : IvOv b a := by
  unfold IvOv at *
  omega

/-- Two intervals containing a common point intersect. -/
theorem IvOv_of_common_point {a b : GraphicFeature} {p : Int}
    (ha1 : a.start ≤ p) (ha2 : p < a.stop)
    (hb1 : b.start ≤ p) (hb2 : p < b.stop) : IvOv a b := by
  unfold IvOv
  omega

/-- On proper linear features, `overlaps_with` returns `false` exactly
when the intervals do not intersect. -/
theorem overlaps_linear_iff_false (a b : GraphicFeature)
    (ha : a.start < a.stop) (hb : b.start < b.stop) :
    GraphicFeature.overlaps_with a b none = .ok false ↔ ¬ IvOv a b := by
  rw [overlaps_with_linear_eq a b ha hb, strictOverlap_eq _ _ _ _ ha hb]
  simp [IvOv]

/-- On proper linear features, the boolean overlap view agrees with the
intersection predicate. -/
theorem ovB_linear_iff (a b : GraphicFeature)
    (ha : a.start < a.stop) (hb : b.start < b.stop) :
    ovB none a b = true ↔ IvOv a b := by
  unfold ovB
  rw [overlaps_with_linear_eq a b ha hb, strictOverlap_eq _ _ _ _ ha hb]
  simp [Except.toOption, IvOv]

/-- Stable insertion produces a permutation of consing. -/
theorem insertByStart_perm (f : GraphicFeature) :
    ∀ l, (insertByStart f l).Perm (f :: l)
  | [] => List.Perm.refl _
  | g :: l => by
    unfold insertByStart
    split_ifs with h
    · exact ((insertByStart_perm f l).cons g).trans (List.Perm.swap f g l)
    · exact List.Perm.refl _

/-- The stable sort produces a permutation of its input. -/
theorem sortByStart_perm : ∀ l, (sortByStart l).Perm l
  | [] => List.Perm.refl _
  | f :: l =>
    (insertByStart_perm f (sortByStart l)).trans
      ((sortByStart_perm l).cons f)

/-- Stable insertion preserves sortedness by start. -/
theorem insertByStart_sorted (f : GraphicFeature) :
    ∀ {l : List GraphicFeature},
      l.Pairwise (fun a b => a.start ≤ b.start) →
      (insertByStart f l).Pairwise (fun a b => a.start ≤ b.start) := by
  intro l
  induction l with
  | nil => intro _; simp [insertByStart]
  | cons g l ih =>
    intro h
    have h' := List.pairwise_cons.mp h
    unfold insertByStart
    split_ifs with hg
    · rw [List.pairwise_cons]
      refine ⟨fun x hx => ?_, ih h'.2⟩
      rcases List.mem_cons.mp ((insertByStart_perm f l).mem_iff.mp hx) with
        h1 | h2
      · rw [h1]; exact hg
      · exact h'.1 x h2
    · rw [List.pairwise_cons]
      refine ⟨fun x hx => ?_, h⟩
      rcases List.mem_cons.mp hx with h1 | h2
      · rw [h1]; omega
      · have := h'.1 x h2
        omega

/-- The stable sort sorts by start position. -/
theorem sortByStart_sorted :
    ∀ l, (sortByStart l).Pairwise (fun a b => a.start ≤ b.start)
  | [] => List.Pairwise.nil
  | f :: l => insertByStart_sorted f (sortByStart_sorted l)

/-- The assignment lists the processed features in order. -/
theorem greedyAux_map_fst (ov : GraphicFeature → GraphicFeature → Bool)
    (rest : List GraphicFeature) :
    ∀ occ, (greedyAux ov occ rest).map Prod.fst = rest := by
  induction rest with
  | nil => intro occ; rfl
  | cons f rest ih =>
    intro occ
    unfold greedyAux
    simp [ih]

/-- A list whose elements are pairwise related in every order is
`Pairwise`. -/
theorem pairwiseOfForallMem {α : Type _} {R : α → α → Prop}
    (l : List α) (h : ∀ a ∈ l, ∀ b ∈ l, R a b) : l.Pairwise R := by
  induction l with
  | nil => exact List.Pairwise.nil
  | cons a l ih =>
    exact List.Pairwise.cons (fun b hb => h a (by simp) b (by simp [hb]))
      (ih fun x hx y hy => h x (by simp [hx]) y (by simp [hy]))

/-- The level selected by `place` never exceeds the number of levels. -/
theorem place_fst_le (ov : GraphicFeature → GraphicFeature → Bool)
    (f : GraphicFeature) :
    ∀ occ : List GraphicFeature, (place ov f occ).1 ≤ occ.length := by
  intro occ
  induction occ with
  | nil => simp [place]
  | cons o occ ih =>
    by_cases h : ov o f
    · simp only [place, if_pos h, List.length_cons]
      omega
    · simp [place, if_neg h]

/-- Every level below the selected one has an occupant overlapping the
placed feature. -/
theorem place_levels_ov (ov : GraphicFeature → GraphicFeature → Bool)
    (f : GraphicFeature) :
    ∀ (occ : List GraphicFeature) (k : Nat), k < (place ov f occ).1 →
      ov (occ.getD k gfDefault) f = true := by
  intro occ
  induction occ with
  | nil => intro k hk; simp [place] at hk
  | cons o occ ih =>
    intro k hk
    by_cases h : ov o f
    · simp only [place, if_pos h] at hk
      cases k with
      | zero => simpa [List.getD_cons_zero] using h
      | succ k =>
        rw [List.getD_cons_succ]
        exact ih k (by omega)
    · simp [place, if_neg h] at hk

/-- When the selected level already exists, its occupant does not overlap
the placed feature. -/
theorem place_occupant_not_ov
    (ov : GraphicFeature → GraphicFeature → Bool) (f : GraphicFeature) :
    ∀ occ : List GraphicFeature, (place ov f occ).1 < occ.length →
      ov (occ.getD (place ov f occ).1 gfDefault) f = false := by
  intro occ
  induction occ with
  | nil => intro h; simp [place] at h
  | cons o occ ih =>
    intro h
    by_cases hov : ov o f
    · simp only [place, if_pos hov] at h ⊢
      rw [List.getD_cons_succ]
      exact ih (by simpa using h)
    · simp only [place, if_neg hov, List.getD_cons_zero]
      simpa [Bool.not_eq_true] using hov

/-- Length of the occupant list after a placement. -/
theorem place_snd_length
    (ov : GraphicFeature → GraphicFeature → Bool) (f : GraphicFeature) :
    ∀ occ : List GraphicFeature,
      (place ov f occ).2.length = max occ.length ((place ov f occ).1 + 1) := by
  intro occ
  induction occ with
  | nil => simp [place]
  | cons o occ ih =>
    by_cases h : ov o f
    · simp only [place, if_pos h, List.length_cons]
      omega
    · simp [place, if_neg h]

/-- Placement leaves every other level's occupant unchanged. -/
theorem place_getD_ne
    (ov : GraphicFeature → GraphicFeature → Bool) (f : GraphicFeature) :
    ∀ (occ : List GraphicFeature) (k : Nat), k ≠ (place ov f occ).1 →
      (place ov f occ).2.getD k gfDefault = occ.getD k gfDefault := by
  intro occ
  induction occ with
  | nil =>
    intro k hk
    simp only [place] at hk ⊢
    cases k with
    | zero => exact absurd rfl hk
    | succ k => simp [List.getD]
  | cons o occ ih =>
    intro k hk
    by_cases h : ov o f
    · simp only [place, if_pos h] at hk ⊢
      cases k with
      | zero => simp [List.getD_cons_zero]
      | succ k =>
        rw [List.getD_cons_succ, List.getD_cons_succ]
        exact ih k (by omega)
    · simp only [place, if_neg h] at hk ⊢
      cases k with
      | zero => exact absurd rfl hk
      | succ k => rw [List.getD_cons_succ, List.getD_cons_succ]

/-- After a placement, the selected level's occupant is the placed
feature. -/
theorem place_getD_self
    (ov : GraphicFeature → GraphicFeature → Bool) (f : GraphicFeature) :
    ∀ occ : List GraphicFeature,
      (place ov f occ).2.getD (place ov f occ).1 gfDefault = f := by
  intro occ
  induction occ with
  | nil => simp [place, List.getD_cons_zero]
  | cons o occ ih =>
    by_cases h : ov o f
    · simp only [place, if_pos h]
      rw [List.getD_cons_succ]
      exact ih
    · simp [place, if_neg h, List.getD_cons_zero]

/-- Invariant of the greedy placement loop relating the occupant-per-level
list `occ` to the assignment history `hist`: each level's occupant is in
the history at that level; levels are in range; each historical entry's
interval ends no later than the current occupant of its level; entries
sharing a level never intersect; the set of levels used is exactly
`range occ.length`; the history contains a pairwise-intersecting
sub-collection of size `occ.length`; and all entries are proper. -/
structure GInv (occ : List GraphicFeature)
    (hist : List (GraphicFeature × Nat)) : Prop where
  occMem : ∀ j < occ.length, (occ.getD j gfDefault, j) ∈ hist
  histLevel : ∀ p ∈ hist, p.2 < occ.length
  histStop : ∀ p ∈ hist, p.1.stop ≤ (occ.getD p.2 gfDefault).stop
  sound : hist.Pairwise (fun p q => p.2 = q.2 → ¬ IvOv p.1 q.1)
  levels : (hist.map Prod.snd).toFinset = Finset.range occ.length
  clique : ∃ cl : List (GraphicFeature × Nat), cl.Nodup ∧
    (∀ x ∈ cl, x ∈ hist) ∧ cl.length = occ.length ∧
    cl.Pairwise (fun p q => IvOv p.1 q.1)
  proper : ∀ p ∈ hist, p.1.start < p.1.stop

/-- The invariant holds at the start of the run. -/
theorem ginv_nil : GInv [] [] := by
  refine ⟨?_, ?_, ?_, ?_, ?_, ⟨[], ?_, ?_, ?_, ?_⟩, ?_⟩ <;> simp

/-- One greedy placement step preserves the invariant, provided the
placed feature is proper and starts no earlier than any already-placed
feature, and the boolean overlap test agrees with interval intersection
on proper features. -/
theorem ginv_step (ov : GraphicFeature → GraphicFeature → Bool)
    (occ : List GraphicFeature) (hist : List (GraphicFeature × Nat))
    (f : GraphicFeature)
    (hov : ∀ a b : GraphicFeature, a.start < a.stop → b.start < b.stop →
      (ov a b = true ↔ IvOv a b))
    (hinv : GInv occ hist)
    (hfp : f.start < f.stop)
    (hstart : ∀ p ∈ hist, p.1.start ≤ f.start) :
    GInv (place ov f occ).2 (hist ++ [(f, (place ov f occ).1)]) := by
  set i := (place ov f occ).1 with hi_def
  set occ2 := (place ov f occ).2 with hocc2_def
  have hil : i ≤ occ.length := place_fst_le ov f occ
  have hlen2 : occ2.length = max occ.length (i + 1) :=
    place_snd_length ov f occ
  have hself : occ2.getD i gfDefault = f := place_getD_self ov f occ
  have hne : ∀ k, k ≠ i → occ2.getD k gfDefault = occ.getD k gfDefault :=
    fun k hk => place_getD_ne ov f occ k hk
  have hoccP : ∀ j, j < occ.length →
      (occ.getD j gfDefault).start < (occ.getD j gfDefault).stop :=
    fun j hj => hinv.proper _ (hinv.occMem j hj)
  have hoccS : ∀ j, j < occ.length →
      (occ.getD j gfDefault).start ≤ f.start :=
    fun j hj => hstart _ (hinv.occMem j hj)
  have hA : i < occ.length → (occ.getD i gfDefault).stop ≤ f.start := by
    intro hlt
    have h1 : ov (occ.getD i gfDefault) f = false :=
      place_occupant_not_ov ov f occ hlt
    have h2 : ¬ IvOv (occ.getD i gfDefault) f := by
      intro hiv
      have h3 := (hov _ _ (hoccP i hlt) hfp).mpr hiv
      rw [h1] at h3
      exact Bool.false_ne_true h3
    have h3 := hoccP i hlt
    have h4 := hoccS i hlt
    unfold IvOv at h2
    omega
  refine ⟨?_, ?_, ?_, ?_, ?_, ?_, ?_⟩
  · intro j hj
    by_cases hji : j = i
    · subst hji
      rw [hself]
      exact List.mem_append_right _ (List.mem_singleton.mpr rfl)
    · have hjlen : j < occ.length := by
        rw [hlen2] at hj
        omega
      rw [hne j hji]
      exact List.mem_append_left _ (hinv.occMem j hjlen)
  · intro p hp
    rcases List.mem_append.mp hp with h | h
    · have := hinv.histLevel p h
      rw [hlen2]
      omega
    · rw [List.mem_singleton.mp h]
      rw [hlen2]
      simp only
      omega
  · intro p hp
    rcases List.mem_append.mp hp with h | h
    · by_cases hpi : p.2 = i
      · have hplt := hinv.histLevel p h
        have hilt : i < occ.length := by omega
        have h1 := hinv.histStop p h
        have h2 := hA hilt
        rw [hpi] at h1 ⊢
        rw [hself]
        omega
      · rw [hne p.2 hpi]
        exact hinv.histStop p h
    · rw [List.mem_singleton.mp h]
      simp only
      rw [hself]
  · rw [List.pairwise_append]
    refine ⟨hinv.sound, List.pairwise_singleton _ _, ?_⟩
    intro p hp q hq
    rw [List.mem_singleton.mp hq]
    intro hpi hiv
    simp only at hpi
    have hplt := hinv.histLevel p hp
    have hilt : i < occ.length := by omega
    have h1 := hinv.histStop p hp
    have h2 := hA hilt
    have h3 := hstart p hp
    rw [hpi] at h1
    unfold IvOv at hiv
    simp only at hiv
    omega
  · rw [List.map_append, List.toFinset_append]
    rw [hinv.levels]
    have hsing : (([(f, i)].map Prod.snd).toFinset : Finset ℕ) = {i} := by
      simp
    rw [hsing, hlen2]
    rcases Nat.lt_or_ge i occ.length with h | h
    · have hmax : max occ.length (i + 1) = occ.length := by omega
      rw [hmax]
      apply Finset.union_eq_left.mpr
      simp [Finset.singleton_subset_iff, Finset.mem_range, h]
    · have hieq : i = occ.length := by omega
      have hmax : max occ.length (i + 1) = occ.length + 1 := by omega
      rw [hmax, hieq, Finset.range_succ, Finset.union_comm,
        ← Finset.insert_eq]
  · rcases Nat.lt_or_ge i occ.length with hcase | hcase
    · obtain ⟨cl, hnd, hmem, hlencl, hpw⟩ := hinv.clique
      refine ⟨cl, hnd, fun x hx => List.mem_append_left _ (hmem x hx),
        ?_, hpw⟩
      rw [hlencl, hlen2]
      omega
    · have hieq : i = occ.length := by omega
      refine ⟨(List.range occ.length).map
          (fun j => (occ.getD j gfDefault, j)) ++ [(f, i)], ?_, ?_, ?_, ?_⟩
      · rw [List.nodup_append]
        refine ⟨List.Nodup.map_on
            (fun x _ y _ hxy => congrArg Prod.snd hxy)
            (List.nodup_range _),
          List.nodup_singleton _, ?_⟩
        intro a ha ha2
        obtain ⟨j, hj, hxeq⟩ := List.mem_map.mp ha
        have hjlt := List.mem_range.mp hj
        rw [List.mem_singleton.mp ha2] at hxeq
        have : j = i := congrArg Prod.snd hxeq
        omega
      · intro x hx
        rcases List.mem_append.mp hx with h | h
        · obtain ⟨j, hj, hxeq⟩ := List.mem_map.mp h
          have hjlt := List.mem_range.mp hj
          rw [← hxeq]
          exact List.mem_append_left _ (hinv.occMem j hjlt)
        · exact List.mem_append_right _ h
      · rw [List.length_append, List.length_map, List.length_range, hlen2]
        simp only [List.length_singleton]
        omega
      · apply pairwiseOfForallMem
        have hcontains : ∀ x ∈ (List.range occ.length).map
            (fun j => (occ.getD j gfDefault, j)) ++ [(f, i)],
            x.1.start ≤ f.start ∧ f.start < x.1.stop := by
          intro x hx
          rcases List.mem_append.mp hx with h | h
          · obtain ⟨j, hj, hxeq⟩ := List.mem_map.mp h
            have hjlt := List.mem_range.mp hj
            have hovj : ov (occ.getD j gfDefault) f = true :=
              place_levels_ov ov f occ j (by omega)
            have hiv := (hov _ _ (hoccP j hjlt) hfp).mp hovj
            have h1 := hoccS j hjlt
            rw [← hxeq]
            simp only
            unfold IvOv at hiv
            exact ⟨h1, by omega⟩
          · rw [List.mem_singleton.mp h]
            exact ⟨le_refl _, hfp⟩
        intro x hx y hy
        have hxc := hcontains x hx
        have hyc := hcontains y hy
        exact IvOv_of_common_point hxc.1 hxc.2 hyc.1 hyc.2
  · intro p hp
    rcases List.mem_append.mp hp with h | h
    · exact hinv.proper p h
    · rw [List.mem_singleton.mp h]
      exact hfp

/-- Running the greedy placement over a sorted list of proper features
preserves the invariant. -/
theorem ginv_run (ov : GraphicFeature → GraphicFeature → Bool)
    (hov : ∀ a b : GraphicFeature, a.start < a.stop → b.start < b.stop →
      (ov a b = true ↔ IvOv a b)) :
    ∀ (rest occ : List GraphicFeature)
      (hist : List (GraphicFeature × Nat)),
      GInv occ hist →
      (∀ x ∈ rest, x.start < x.stop) →
      rest.Pairwise (fun a b => a.start ≤ b.start) →
      (∀ p ∈ hist, ∀ x ∈ rest, p.1.start ≤ x.start) →
      ∃ occFin, GInv occFin (hist ++ greedyAux ov occ rest) := by
  intro rest
  induction rest with
  | nil =>
    intro occ hist hinv _ _ _
    exact ⟨occ, by simpa [greedyAux] using hinv⟩
  | cons f rest ih =>
    intro occ hist hinv hprop hsort hctx
    have hfp : f.start < f.stop := hprop f (by simp)
    have hstart : ∀ p ∈ hist, p.1.start ≤ f.start :=
      fun p hp => hctx p hp f (by simp)
    have hstep := ginv_step ov occ hist f hov hinv hfp hstart
    have hsort' := List.pairwise_cons.mp hsort
    have hctx2 : ∀ p ∈ hist ++ [(f, (place ov f occ).1)], ∀ x ∈ rest,
        p.1.start ≤ x.start := by
      intro p hp x hx
      rcases List.mem_append.mp hp with h | h
      · exact hctx p h x (by simp [hx])
      · rw [List.mem_singleton.mp h]
        exact hsort'.1 x hx
    obtain ⟨occFin, hfin⟩ := ih (place ov f occ).2
      (hist ++ [(f, (place ov f occ).1)]) hstep
      (fun x hx => hprop x (by simp [hx])) hsort'.2 hctx2
    refine ⟨occFin, ?_⟩
    rw [List.append_assoc] at hfin
    simpa [greedyAux] using hfin

/-- Position of an element in an assignment list (the first index at
which it occurs), using the decidable-equality comparison. -/
def posOf (x : GraphicFeature × Nat) (l : List (GraphicFeature × Nat)) :
    Nat :=
  @List.indexOf (GraphicFeature × Nat) instBEqOfDecidableEq x l

/-- An element's position is within bounds. -/
theorem posOf_lt_length {x : GraphicFeature × Nat}
    {l : List (GraphicFeature × Nat)} (h : x ∈ l) :
    posOf x l < l.length :=
  List.indexOf_lt_length.mpr h

/-- Retrieving at an element's position yields the element. -/
theorem get_posOf {x : GraphicFeature × Nat}
    {l : List (GraphicFeature × Nat)} (h : posOf x l < l.length) :
    l.get ⟨posOf x l, h⟩ = x := by
  unfold posOf at h ⊢
  simp only [List.get_eq_getElem]
  exact List.getElem_indexOf h

/-- C9 (amended): for features that are all proper linear intervals, the
modelled level assignment lists the features (as a permutation of the
input), never places two overlapping features (per
`Feature.overlaps_with`) at the same level, and uses the minimum number
of distinct levels achievable by any assignment that keeps overlapping
features on different levels.  (The original claim also covered circular
records, where the assignment is not even sound — see the
counterexample.) -/
theorem levels_greedy_spec (fs : List GraphicFeature)
    (hfs : ∀ f ∈ fs, f.start < f.stop) :
    ((compute_features_levels none fs).map Prod.fst).Perm fs ∧
    (∀ i j : Fin (compute_features_levels none fs).length, i ≠ j →
      ((compute_features_levels none fs).get i).2 =
        ((compute_features_levels none fs).get j).2 →
      GraphicFeature.overlaps_with
        ((compute_features_levels none fs).get i).1
        ((compute_features_levels none fs).get j).1 none = .ok false) ∧
    (∀ c : Fin (compute_features_levels none fs).length → ℕ,
      (∀ i j : Fin (compute_features_levels none fs).length, i ≠ j →
        c i = c j →
        GraphicFeature.overlaps_with
          ((compute_features_levels none fs).get i).1
          ((compute_features_levels none fs).get j).1 none = .ok false) →
      ((compute_features_levels none fs).map Prod.snd).toFinset.card ≤
        (Finset.image c Finset.univ).card) := by
  have hmapfst : (compute_features_levels none fs).map Prod.fst =
      sortByStart fs := greedyAux_map_fst (ovB none) (sortByStart fs) []
  have hperm : ((compute_features_levels none fs).map Prod.fst).Perm fs := by
    rw [hmapfst]
    exact sortByStart_perm fs
  have hproper : ∀ p ∈ compute_features_levels none fs,
      p.1.start < p.1.stop := by
    intro p hp
    have hm : p.1 ∈ (compute_features_levels none fs).map Prod.fst :=
      List.mem_map_of_mem _ hp
    exact hfs _ (hperm.mem_iff.mp hm)
  have hgetproper : ∀ i : Fin (compute_features_levels none fs).length,
      ((compute_features_levels none fs).get i).1.start <
        ((compute_features_levels none fs).get i).1.stop :=
    fun i => hproper _ (List.get_mem _ i.1 i.2)
  obtain ⟨occFin, hfin⟩ := ginv_run (ovB none)
    (fun a b ha hb => ovB_linear_iff a b ha hb)
    (sortByStart fs) [] [] ginv_nil
    (fun x hx => hfs x ((sortByStart_perm fs).mem_iff.mp hx))
    (sortByStart_sorted fs)
    (fun p hp => absurd hp (List.not_mem_nil p))
  have hfin2 : GInv occFin (compute_features_levels none fs) := hfin
  refine ⟨hperm, ?_, ?_⟩
  · intro i j hne hlev
    have hpw := List.pairwise_iff_get.mp hfin2.sound
    rcases Nat.lt_or_ge i.1 j.1 with hij | hij
    · have hniv := hpw i j hij hlev
      exact (overlaps_linear_iff_false _ _ (hgetproper i)
        (hgetproper j)).mpr hniv
    · have hji : j < i := by
        rcases Nat.lt_or_ge j.1 i.1 with h | h
        · exact h
        · exact absurd (Fin.ext (by omega)) hne
      have hniv := hpw j i hji hlev.symm
      exact (overlaps_linear_iff_false _ _ (hgetproper i)
        (hgetproper j)).mpr (fun hiv => hniv (IvOv_symm hiv))
  · intro c hc
    have hcount : ((compute_features_levels none fs).map
        Prod.snd).toFinset.card = occFin.length := by
      rw [hfin2.levels, Finset.card_range]
    rw [hcount]
    obtain ⟨cl, hnd, hmem, hlencl, hpw⟩ := hfin2.clique
    have hpwAll : ∀ x ∈ cl, ∀ y ∈ cl, x ≠ y → IvOv x.1 y.1 :=
      fun x hx y hy hxy =>
        List.Pairwise.forall (fun p q h => IvOv_symm h) hpw hx hy hxy
    have hidxlt : ∀ x ∈ cl,
        posOf x (compute_features_levels none fs) <
          (compute_features_levels none fs).length :=
      fun x hx => posOf_lt_length (hmem x hx)
    have hgetidx : ∀ x ∈ cl, ∀ (h : posOf x
        (compute_features_levels none fs) <
        (compute_features_levels none fs).length),
        (compute_features_levels none fs).get ⟨_, h⟩ = x := by
      intro x hx h
      exact get_posOf h
    have hInj : ∀ x ∈ cl, ∀ y ∈ cl,
        posOf x (compute_features_levels none fs) =
          posOf y (compute_features_levels none fs) → x = y := by
      intro x hx y hy hxy
      have h1 := hgetidx x hx (hidxlt x hx)
      have h2 := hgetidx y hy (hidxlt y hy)
      rw [← h1, ← h2]
      congr 1
      exact Fin.ext hxy
    have hndT : (cl.map fun x =>
        posOf x (compute_features_levels none fs)).Nodup :=
      List.Nodup.map_on (fun x hx y hy => hInj x hx y hy) hnd
    have hcardT : (cl.map fun x =>
        posOf x (compute_features_levels none fs)).toFinset.card =
        occFin.length := by
      rw [List.toFinset_card_of_nodup hndT, List.length_map, hlencl]
    set T := (cl.map fun x =>
      posOf x (compute_features_levels none fs)).toFinset with hT
    set cExt : ℕ → ℕ := fun k =>
      if h : k < (compute_features_levels none fs).length then c ⟨k, h⟩
      else 0 with hcExt
    have hTElem : ∀ k ∈ T, ∃ x ∈ cl,
        posOf x (compute_features_levels none fs) = k := by
      intro k hk
      rw [hT] at hk
      obtain ⟨x, hx, hxk⟩ := List.mem_map.mp (List.mem_toFinset.mp hk)
      exact ⟨x, hx, hxk⟩
    have hsub : T.image cExt ⊆ Finset.image c Finset.univ := by
      intro v hv
      obtain ⟨k, hk, hkv⟩ := Finset.mem_image.mp hv
      obtain ⟨x, hx, hxk⟩ := hTElem k hk
      have hklt : k < (compute_features_levels none fs).length := by
        rw [← hxk]
        exact hidxlt x hx
      rw [← hkv, hcExt]
      simp only [dif_pos hklt]
      exact Finset.mem_image.mpr ⟨⟨k, hklt⟩, Finset.mem_univ _, rfl⟩
    have hinjT : Set.InjOn cExt (T : Set ℕ) := by
      intro k1 hk1 k2 hk2 heq
      obtain ⟨x1, hx1, hxk1⟩ := hTElem k1 (Finset.mem_coe.mp hk1)
      obtain ⟨x2, hx2, hxk2⟩ := hTElem k2 (Finset.mem_coe.mp hk2)
      subst hxk1
      subst hxk2
      by_contra hne12
      have hxne : x1 ≠ x2 := fun hx12 => hne12 (by rw [hx12])
      have hklt1 := hidxlt x1 hx1
      have hklt2 := hidxlt x2 hx2
      simp only [hcExt, dif_pos hklt1, dif_pos hklt2] at heq
      have hFne : (⟨posOf x1 (compute_features_levels none fs),
          hklt1⟩ : Fin (compute_features_levels none fs).length) ≠
          ⟨posOf x2 (compute_features_levels none fs), hklt2⟩ :=
        fun h => hne12 (congrArg Fin.val h)
      have hov := hc _ _ hFne heq
      rw [hgetidx x1 hx1 hklt1, hgetidx x2 hx2 hklt2] at hov
      have hniv := (overlaps_linear_iff_false x1.1 x2.1
        (hproper x1 (hmem x1 hx1)) (hproper x2 (hmem x2 hx2))).mp hov
      exact hniv (hpwAll x1 hx1 x2 hx2 hxne)
    calc occFin.length = T.card := hcardT.symm
      _ = (T.image cExt).card := (Finset.card_image_of_injOn hinjT).symm
      _ ≤ (Finset.image c Finset.univ).card := Finset.card_le_card hsub

/-- Witness for C9 at the concrete overlapping pair `[0,2]`, `[1,3]`. -/
theorem levels_greedy_spec_witness :
    (∀ f ∈ [gf 0 2, gf 1 3], f.start < f.stop) ∧
    (((compute_features_levels none [gf 0 2, gf 1 3]).map Prod.fst).Perm
        [gf 0 2, gf 1 3] ∧
    (∀ i j : Fin (compute_features_levels none [gf 0 2, gf 1 3]).length,
        i ≠ j →
      ((compute_features_levels none [gf 0 2, gf 1 3]).get i).2 =
        ((compute_features_levels none [gf 0 2, gf 1 3]).get j).2 →
      GraphicFeature.overlaps_with
        ((compute_features_levels none [gf 0 2, gf 1 3]).get i).1
        ((compute_features_levels none [gf 0 2, gf 1 3]).get j).1 none =
        .ok false) ∧
    (∀ c : Fin (compute_features_levels none [gf 0 2, gf 1 3]).length → ℕ,
      (∀ i j : Fin (compute_features_levels none [gf 0 2, gf 1 3]).length,
          i ≠ j → c i = c j →
        GraphicFeature.overlaps_with
          ((compute_features_levels none [gf 0 2, gf 1 3]).get i).1
          ((compute_features_levels none [gf 0 2, gf 1 3]).get j).1 none =
          .ok false) →
      ((compute_features_levels none [gf 0 2, gf 1 3]).map
          Prod.snd).toFinset.card ≤
        (Finset.image c Finset.univ).card)) :=
  ⟨by decide, levels_greedy_spec [gf 0 2, gf 1 3] (by decide)⟩
